import Mathlib

/-!  Formal model of `ode_system.py` (desr): power matrices of rational ODE
right-hand sides and the maximal scaling matrix extracted from a row-style
Hermite normal form.  Integer matrices are modelled as lists of rows over ℤ
(`numpy` arrays of `INT_TYPE_DEF` entries), rational expressions by the
decomposition the symbolic engine hands back.  -/

/-- Entry `j` of the product of a row vector `v` with the matrix `A`
(a list of rows): the sum of `v i * A i j`. -/
def dotCol (v : List ℤ) (A : List (List ℤ)) (j : ℕ) : ℤ :=
  ((v.zip A).map fun p => p.1 * p.2.getD j 0).sum

/-- Product of a row vector with a matrix having `m` columns. -/
def vecMatMul (v : List ℤ) (A : List (List ℤ)) (m : ℕ) : List ℤ :=
  (List.range m).map (dotCol v A)

/-- Matrix product `U·A`, where `m` is the column count of `A`. -/
def matMul (U A : List (List ℤ)) (m : ℕ) : List (List ℤ) :=
  U.map fun r => vecMatMul r A m

/-- Modelled from the spec: the symbolic engine's decomposition of a
cancelled rational expression (the sympy collaborator of spec §6, used via
`sympy_helper`) into numerator/denominator constants plus non-constant
monomial terms (`as_numer_denom` followed by `as_coeff_add`).  Each
monomial term is represented by its integer exponent vector over the
ordered variable list, as `monomial_to_powers` extracts it (spec §4.1);
numeric coefficients are discarded there, so they are not carried here. -/
structure RatDecomp where
  numConst : ℚ
  numTerms : List (List ℤ)
  denomConst : ℚ
  denomTerms : List (List ℤ)
deriving DecidableEq

/-- Modelled from the spec: `monomial_to_powers (mon / ref)` (spec §4.1)
on exponent vectors is componentwise subtraction of the reference
exponents. -/
def divPowers (mon ref : List ℤ) : List ℤ :=
  List.zipWith (· - ·) mon ref

/-- Power matrix of a rational expression, following
`rational_expr_to_power_matrix` in `ode_system.py`: choose the reference
monomial, normalise the surviving terms by it, and transpose the list of
exponent columns, as `numpy.array(powers).T` does (an empty column list
yields a 0-row array, which `List.transpose` mirrors).  Returns `none`
where the code raises: popping from an empty denominator term list. -/
def rational_expr_to_power_matrix (n : ℕ) (d : RatDecomp) : Option (List (List ℤ)) :=
  if d.denomConst ≠ 0 then
    let nts := if d.numConst ≠ 0 then d.numTerms ++ [List.replicate n 0] else d.numTerms
    some (List.transpose (nts ++ d.denomTerms))
  else if d.numConst ≠ 0 then
    some (List.transpose (d.numTerms ++ d.denomTerms))
  else
    match d.denomTerms.getLast? with
    | none => none
    | some ref =>
        some (List.transpose ((d.numTerms ++ d.denomTerms.dropLast).map (fun mon => divPowers mon ref)))

/-- Reference-monomial choice as the spec words it (§4.2): the inner
`none` stands for the reference `1`; the outer `Option` is failure (no
constants and an empty denominator term list). -/
def referenceMonomial (d : RatDecomp) : Option (Option (List ℤ)) :=
  if d.denomConst ≠ 0 then some none
  else if d.numConst ≠ 0 then some none
  else d.denomTerms.getLast?.map some

/-- Power matrix computed as the spec words it (§4.2): pick the reference
monomial, fold a nonzero numerator constant in as an extra numerator term
when the denominator constant is nonzero, remove the popped reference from
the denominator terms, divide every surviving term by the reference, and
stack the exponent vectors as columns. -/
def rational_expr_to_power_matrix_spec (n : ℕ) (d : RatDecomp) : Option (List (List ℤ)) :=
  match referenceMonomial d with
  | none => none
  | some ref =>
      let nts := if d.denomConst ≠ 0 ∧ d.numConst ≠ 0 then d.numTerms ++ [List.replicate n 0] else d.numTerms
      let dts := if ref.isSome then d.denomTerms.dropLast else d.denomTerms
      some (List.transpose ((nts ++ dts).map
        (fun mon => match ref with | none => mon | some r => divPowers mon r)))

/-- C3: `rational_expr_to_power_matrix` chooses the reference monomial by
the spec's cascade — reference `1` (with a nonzero numerator constant
folded in as an extra numerator term) when the denominator constant is
nonzero, reference `1` when only the numerator constant is nonzero, and
otherwise the popped last denominator term, by which every remaining
numerator and denominator term is divided before its exponent vector is
extracted. -/
theorem rational_expr_to_power_matrix_ref_choice (n : ℕ) (d : RatDecomp) :
    rational_expr_to_power_matrix n d = rational_expr_to_power_matrix_spec n d := by
  unfold rational_expr_to_power_matrix rational_expr_to_power_matrix_spec referenceMonomial
  by_cases h1 : d.denomConst ≠ 0
  · by_cases h2 : d.numConst ≠ 0 <;> simp [h1, h2]
  · by_cases h2 : d.numConst ≠ 0
    · simp [h1, h2]
    · simp only [h1, h2, if_neg, ite_false]
      cases hl : d.denomTerms.getLast? <;> simp [hl]

/-- Python `list.index`: index of the first element equal to `a` (the
length when `a` is absent). -/
def pyIndex [DecidableEq α] (a : α) : List α → ℕ
  | [] => 0
  | x :: xs => if x = a then 0 else pyIndex a xs + 1

/-- Model of the `ODESystem` class: the ordered variable tuple, the
parallel derivative tuple (`none` models Python `None`, an unspecified
derivative), and the independent variable.  Sympy expressions are an
abstract type `E` with decidable structural equality. -/
structure ODESystemM (E : Type) where
  vars : List E
  derivatives : List (Option E)
  indepVar : E
deriving DecidableEq

/-- The `derivatives` property of `ODESystem`: unspecified entries are
read as `zero` (the model of `sympy.sympify(0)`). -/
def derivativesRead (zero : E) (s : ODESystemM E) : List E :=
  s.derivatives.map (fun o => o.getD zero)

/-- Constructor with the assertions of `ODESystem.__init__`: the
independent variable is a member of the variable tuple, the tuples have
equal length, and the independent variable's derivative reads as `one`
(the model of `sympy.sympify(1)`) through the `derivatives` property. -/
def mkODESystem [DecidableEq E] (zero one : E) (vars : List E) (derivs : List (Option E))
    (indep : E) : Option (ODESystemM E) :=
  if indep ∈ vars ∧ vars.length = derivs.length ∧
      (derivs.map (fun o => o.getD zero)).getD (pyIndex indep vars) zero = one
  then some ⟨vars, derivs, indep⟩ else none

/-- The `derivative_dict` property: variable/derivative pairs with the
unspecified (`None`) derivatives filtered out, the mapping modelled in
insertion order (the order of the variable tuple). -/
def derivative_dict (s : ODESystemM E) : List (E × E) :=
  (s.vars.zip s.derivatives).filterMap (fun p => p.2.map (fun e => (p.1, e)))

/-- Collects a list of optional values, failing if any is `none`. -/
def seqOption : List (Option α) → Option (List α)
  | [] => some []
  | none :: _ => none
  | some a :: rest => (seqOption rest).map (a :: ·)

/-- Model of `numpy.hstack` on a list of blocks (each a list of rows):
raises (returns `none`) on an empty list or when two blocks disagree on
the row count (dimension mismatch), otherwise concatenates the rows
pointwise. -/
def hstack : List (List (List ℤ)) → Option (List (List ℤ))
  | [] => none
  | b :: bs =>
      if bs.all (fun c => c.length == b.length)
      then some (bs.foldl (fun acc c => List.zipWith (· ++ ·) acc c) b) else none

/-- The `power_matrix` method: one block per specified derivative, in the
order of `derivative_dict`; the symbolic step (cancelling `t·f/x` and
decomposing it) is supplied by the collaborator function `decompose`
(modelled from the spec, §6: the sympy engine).  The blocks are hstacked
and the row count asserted to be `len(variables)`. -/
def power_matrix (decompose : E → E → RatDecomp) (s : ODESystemM E) : Option (List (List ℤ)) :=
  match seqOption ((derivative_dict s).map
      (fun p => rational_expr_to_power_matrix s.vars.length (decompose p.1 p.2))) with
  | none => none
  | some blocks =>
      match hstack blocks with
      | none => none
      | some out => if out.length = s.vars.length then some out else none

/-- Number of all-zero rows of a matrix (`sum(map(int, row_is_zero))` in
`maximal_scaling_matrix`; the code misnames it `num_nonzero`). -/
def numZeroRows (H : List (List ℤ)) : ℕ :=
  (H.filter (fun r => r.all (fun x => x == 0))).length

/-- Zero-row extraction step of `maximal_scaling_matrix`, given the
Hermite normal form `H` and the unimodular multiplier `U` returned by
`hnf_row`: count the all-zero rows of `H`; if there are none return a
single all-zero row of length `n`; otherwise assert that the zero rows
are contiguous at the bottom and that `U` has `n` columns, and return the
last rows of `U`. -/
def maximal_scaling_from_hnf (n : ℕ) (H U : List (List ℤ)) : Option (List (List ℤ)) :=
  if numZeroRows H = 0 then some [List.replicate n 0]
  else if ((H.drop (H.length - numZeroRows H)).all (fun r => r.all (fun x => x == 0)))
      && (U.all (fun r => r.length == n))
  then some (U.drop (U.length - numZeroRows H)) else none

/-- The `maximal_scaling_matrix` method: power matrix, then `hnf_row`
(the collaborator from `hermite_helper`, modelled from the spec (§4.3) as
a function returning the pair `(H, U)` subject to the contract
`U·A = H`), then zero-row extraction. -/
def maximal_scaling_matrix (decompose : E → E → RatDecomp)
    (hnf : List (List ℤ) → List (List ℤ) × List (List ℤ)) (s : ODESystemM E) :
    Option (List (List ℤ)) :=
  match power_matrix decompose s with
  | none => none
  | some A => maximal_scaling_from_hnf s.vars.length (hnf A).1 (hnf A).2

/-- C6: construction of an `ODESystem` succeeds exactly when the asserted
preconditions hold — the independent variable is in the variable list,
the lengths agree, and the derivative stored at the independent
variable's index reads as 1 — and every successfully constructed system
keeps the given fields, hence satisfies those invariants. -/
theorem mkODESystem_invariants {E : Type} [DecidableEq E] (zero one : E) (vars : List E)
    (derivs : List (Option E)) (indep : E) :
    ((mkODESystem zero one vars derivs indep).isSome ↔
      (indep ∈ vars ∧ vars.length = derivs.length ∧
        (derivs.map (fun o => o.getD zero)).getD (pyIndex indep vars) zero = one)) ∧
    ∀ s, mkODESystem zero one vars derivs indep = some s →
      s.vars = vars ∧ s.derivatives = derivs ∧ s.indepVar = indep ∧
      s.indepVar ∈ s.vars ∧ s.vars.length = s.derivatives.length ∧
      (derivativesRead zero s).getD (pyIndex s.indepVar s.vars) zero = one := by
  unfold mkODESystem
  by_cases h : indep ∈ vars ∧ vars.length = derivs.length ∧
      (derivs.map (fun o => o.getD zero)).getD (pyIndex indep vars) zero = one
  · rw [if_pos h]
    refine ⟨by simpa using h, ?_⟩
    rintro s hs
    injection hs with hs
    subst hs
    exact ⟨rfl, rfl, rfl, h.1, h.2.1, h.2.2⟩
  · rw [if_neg h]
    refine ⟨by simpa using h, ?_⟩
    rintro s hs
    cases hs

/-- Witness for C6: a concrete two-variable system passes the
constructor's checks and satisfies the invariants. -/
theorem mkODESystem_invariants_witness :
    ((⟨[5, 0], [some 3, some 1], 0⟩ : ODESystemM ℕ)).vars.length =
      ((⟨[5, 0], [some 3, some 1], 0⟩ : ODESystemM ℕ)).derivatives.length :=
  ((mkODESystem_invariants 0 1 [5, 0] [some 3, some 1] 0).2
    ⟨[5, 0], [some 3, some 1], 0⟩ (by decide)).2.2.2.2.1

/-- A zero row vector annihilates any matrix columnwise. -/
theorem dotCol_replicate_zero (n : ℕ) (A : List (List ℤ)) (j : ℕ) :
    dotCol (List.replicate n 0) A j = 0 := by
  unfold dotCol
  apply List.sum_eq_zero
  intro x hx
  obtain ⟨p, hp, rfl⟩ := List.mem_map.mp hx
  obtain ⟨a, b⟩ := p
  have h1 : a = 0 := List.eq_of_mem_replicate (List.of_mem_zip hp).1
  rw [h1, zero_mul]

/-- Multiplying the zero row vector by any matrix gives the zero vector. -/
theorem vecMatMul_replicate_zero (n m : ℕ) (A : List (List ℤ)) :
    vecMatMul (List.replicate n 0) A m = List.replicate m 0 := by
  unfold vecMatMul
  rw [List.eq_replicate_iff]
  refine ⟨by simp, ?_⟩
  intro b hb
  obtain ⟨j, _, rfl⟩ := List.mem_map.mp hb
  exact dotCol_replicate_zero n A j

/-- Core of C1, over the extraction step: under the hnf_row contract
`U·A = H`, every row of the extracted matrix annihilates `A` from the
left. -/
theorem from_hnf_rows_in_left_nullspace (n m : ℕ) (A H U M : List (List ℤ))
    (hUA : matMul U A m = H)
    (hM : maximal_scaling_from_hnf n H U = some M) :
    ∀ row ∈ M, vecMatMul row A m = List.replicate m 0 := by
  unfold maximal_scaling_from_hnf at hM
  by_cases hk : numZeroRows H = 0
  · rw [if_pos hk] at hM
    injection hM with hM
    subst hM
    intro row hrow
    rw [List.mem_singleton.mp hrow]
    exact vecMatMul_replicate_zero n m A
  · rw [if_neg hk] at hM
    cases hcond : ((H.drop (H.length - numZeroRows H)).all (fun r => r.all (fun x => x == 0)))
        && (U.all (fun r => r.length == n))
    · rw [hcond] at hM
      cases hM
    · rw [hcond] at hM
      simp only [if_true] at hM
      injection hM with hM
      subst hM
      intro row hrow
      obtain ⟨h1, _⟩ := Bool.and_eq_true_iff.mp hcond
      have hHrow : vecMatMul row A m ∈ H.drop (H.length - numZeroRows H) := by
        set k := numZeroRows H with hkdef
        have hdropeq : H.drop (H.length - k) =
            (U.drop (U.length - k)).map (fun r => vecMatMul r A m) := by
          rw [← hUA, matMul, List.length_map, ← List.map_drop]
        rw [hdropeq]
        exact List.mem_map_of_mem _ hrow
      have hall := List.all_eq_true.mp h1 _ hHrow
      have hzero : ∀ x ∈ vecMatMul row A m, x = (0 : ℤ) := by
        intro x hx
        exact eq_of_beq (List.all_eq_true.mp hall x hx)
      rw [List.eq_replicate_iff]
      exact ⟨by simp [vecMatMul], hzero⟩

/-- C1: every row of a matrix successfully returned by
`maximal_scaling_matrix` lies in the integer left-nullspace of the
system's combined power matrix, given the hnf_row contract `U·A = H`
(hnf_row lives in `hermite_helper`; its contract is the spec's, §4.3). -/
theorem maximal_scaling_rows_in_left_nullspace {E : Type} [DecidableEq E]
    (decompose : E → E → RatDecomp)
    (hnf : List (List ℤ) → List (List ℤ) × List (List ℤ)) (s : ODESystemM E)
    (A M : List (List ℤ)) (m : ℕ)
    (hA : power_matrix decompose s = some A)
    (hUA : matMul (hnf A).2 A m = (hnf A).1)
    (hM : maximal_scaling_matrix decompose hnf s = some M) :
    ∀ row ∈ M, vecMatMul row A m = List.replicate m 0 := by
  unfold maximal_scaling_matrix at hM
  rw [hA] at hM
  exact from_hnf_rows_in_left_nullspace s.vars.length m A (hnf A).1 (hnf A).2 M hUA hM

/-- Core of C2, over the extraction step: the result has rows of length
`n`, at least one row, and is the single zero row exactly in the
degenerate no-zero-rows case. -/
theorem from_hnf_shape (n m : ℕ) (A H U M : List (List ℤ))
    (hUA : matMul U A m = H)
    (hM : maximal_scaling_from_hnf n H U = some M) :
    (∀ row ∈ M, row.length = n) ∧ 1 ≤ M.length ∧
      (numZeroRows H = 0 → M = [List.replicate n 0]) := by
  unfold maximal_scaling_from_hnf at hM
  by_cases hk : numZeroRows H = 0
  · rw [if_pos hk] at hM
    injection hM with hM
    subst hM
    refine ⟨?_, by simp, fun _ => rfl⟩
    intro row hrow
    rw [List.mem_singleton.mp hrow]
    exact List.length_replicate n 0
  · rw [if_neg hk] at hM
    cases hcond : ((H.drop (H.length - numZeroRows H)).all (fun r => r.all (fun x => x == 0)))
        && (U.all (fun r => r.length == n))
    · rw [hcond] at hM
      cases hM
    · rw [hcond] at hM
      simp only [if_true] at hM
      injection hM with hM
      subst hM
      obtain ⟨_, h2⟩ := Bool.and_eq_true_iff.mp hcond
      have hkU : numZeroRows H ≤ U.length := by
        have hlen : H.length = U.length := by rw [← hUA]; exact (List.length_map _ _)
        rw [← hlen]
        exact List.length_filter_le _ H
      refine ⟨?_, ?_, fun h0 => absurd h0 hk⟩
      · intro row hrow
        have hrU : row ∈ U := List.mem_of_mem_drop hrow
        exact eq_of_beq (List.all_eq_true.mp h2 _ hrU)
      · rw [List.length_drop, Nat.sub_sub_self hkU]
        exact Nat.one_le_iff_ne_zero.mpr hk

/-- C2: a matrix successfully returned by `maximal_scaling_matrix` has
exactly `len(variables)` columns and at least one row, and it is the
single all-zero row exactly when the Hermite form has no zero rows. -/
theorem maximal_scaling_shape {E : Type} [DecidableEq E]
    (decompose : E → E → RatDecomp)
    (hnf : List (List ℤ) → List (List ℤ) × List (List ℤ)) (s : ODESystemM E)
    (A M : List (List ℤ)) (m : ℕ)
    (hA : power_matrix decompose s = some A)
    (hUA : matMul (hnf A).2 A m = (hnf A).1)
    (hM : maximal_scaling_matrix decompose hnf s = some M) :
    (∀ row ∈ M, row.length = s.vars.length) ∧ 1 ≤ M.length ∧
      (numZeroRows (hnf A).1 = 0 → M = [List.replicate s.vars.length 0]) := by
  unfold maximal_scaling_matrix at hM
  rw [hA] at hM
  exact from_hnf_shape s.vars.length m A (hnf A).1 (hnf A).2 M hUA hM

/-- Concrete decomposition oracle for the witnesses: every derivative
ratio decomposes as (1 + x·y) / 1 over two variables. -/
def exDecomp : ℕ → ℕ → RatDecomp := fun _ _ => ⟨1, [[1, 0]], 1, []⟩

/-- Concrete two-variable system for the witnesses. -/
def exSys : ODESystemM ℕ := ⟨[1, 0], [some 10, some 11], 0⟩

/-- The power matrix of `exSys` under `exDecomp`. -/
def exA : List (List ℤ) := [[1, 0, 1, 0], [0, 0, 0, 0]]

/-- Concrete hnf_row oracle for the witnesses (identity multiplier). -/
def exHnf : List (List ℤ) → List (List ℤ) × List (List ℤ) :=
  fun _ => ([[1, 0, 1, 0], [0, 0, 0, 0]], [[1, 0], [0, 1]])

/-- Witness for C1 at the concrete system. -/
theorem maximal_scaling_rows_in_left_nullspace_witness :
    vecMatMul [0, 1] exA 4 = List.replicate 4 0 :=
  maximal_scaling_rows_in_left_nullspace exDecomp exHnf exSys exA [[0, 1]] 4
    (by decide) (by decide) (by decide) [0, 1] (by decide)

/-- Witness for C2 at the concrete system. -/
theorem maximal_scaling_shape_witness : 1 ≤ ([[(0 : ℤ), 1]] : List (List ℤ)).length :=
  (maximal_scaling_shape exDecomp exHnf exSys exA [[0, 1]] 4
    (by decide) (by decide) (by decide)).2.1

/-- The keys of `derivative_dict` appear in the order of the variable
tuple: they form a sublist of it. -/
theorem derivative_dict_fst_sublist (vars : List E) (ders : List (Option E)) :
    List.Sublist (((vars.zip ders).filterMap (fun p => p.2.map (fun e => (p.1, e)))).map Prod.fst) vars := by
  induction vars generalizing ders with
  | nil => simp
  | cons v vs ih =>
      cases ders with
      | nil => simp
      | cons o os =>
          cases o with
          | none =>
              simp only [List.zip_cons_cons, List.filterMap_cons, Option.map_none']
              exact List.Sublist.cons v (ih os)
          | some e =>
              simp only [List.zip_cons_cons, List.filterMap_cons, Option.map_some', List.map_cons]
              exact List.Sublist.cons₂ v (ih os)

/-- The keys of `derivative_dict` are exactly the variables whose paired
derivative is specified. -/
theorem derivative_dict_fst_eq_filter (l : List (E × Option E)) :
    (l.filterMap (fun p => p.2.map (fun e => (p.1, e)))).map Prod.fst =
      (l.filter (fun p => p.2.isSome)).map Prod.fst := by
  induction l with
  | nil => rfl
  | cons p rest ih =>
      obtain ⟨v, o⟩ := p
      cases o with
      | none => simpa using ih
      | some e => simpa using ih

/-- C4: a successful `power_matrix` is the horizontal stacking of the
per-equation blocks produced (via the collaborator decomposition of
`t·f_x/x`) for the variables with specified derivatives, in the system's
variable order restricted to those variables, and it has exactly
`len(variables)` rows. -/
theorem power_matrix_blocks {E : Type} [DecidableEq E] (decompose : E → E → RatDecomp)
    (s : ODESystemM E) (M : List (List ℤ))
    (hM : power_matrix decompose s = some M) :
    List.Sublist ((derivative_dict s).map Prod.fst) s.vars ∧
    (derivative_dict s).map Prod.fst =
      ((s.vars.zip s.derivatives).filter (fun p => p.2.isSome)).map Prod.fst ∧
    M.length = s.vars.length ∧
    ∃ blocks,
      seqOption ((derivative_dict s).map
        (fun p => rational_expr_to_power_matrix s.vars.length (decompose p.1 p.2))) = some blocks ∧
      hstack blocks = some M := by
  refine ⟨derivative_dict_fst_sublist s.vars s.derivatives,
    derivative_dict_fst_eq_filter (s.vars.zip s.derivatives), ?_⟩
  unfold power_matrix at hM
  split at hM
  · cases hM
  · rename_i blocks hseq
    split at hM
    · cases hM
    · rename_i out hh
      split at hM
      · rename_i hl
        injection hM with hM
        subst hM
        exact ⟨hl, blocks, hseq, hh⟩
      · cases hM

/-- Witness for C4 at the concrete system. -/
theorem power_matrix_blocks_witness : exA.length = exSys.vars.length :=
  (power_matrix_blocks exDecomp exSys exA (by decide)).2.2.1

/-- Decomposition oracle with an explicit zero derivative: for the first
variable the ratio `t·0/x` cancels to `0`, decomposing as `0/1` with no
monomial terms; the second variable's ratio cancels to `1`. -/
def zexDecomp : ℕ → ℕ → RatDecomp := fun v _ => if v = 1 then ⟨0, [], 1, []⟩ else ⟨1, [], 1, []⟩

/-- Two-variable system whose first derivative is the explicit zero. -/
def zexSys : ODESystemM ℕ := ⟨[1, 0], [some 20, some 11], 0⟩

/-- C5 (refutation at the failing input): with `dx/dt = 0` the block of
`x` has zero surviving terms; `numpy.array([]).T` is a 0-row array — not
the n×0 matrix the spec requires — and the horizontal stacking inside
`power_matrix` then fails on the row-count mismatch instead of treating
the block as contributing no columns. -/
theorem zero_term_block_breaks_power_matrix :
    rational_expr_to_power_matrix 2 ⟨0, [], 1, []⟩ = some [] ∧
    ([] : List (List ℤ)) ≠ List.replicate 2 [] ∧
    power_matrix zexDecomp zexSys = none := by decide

/-- Inner loop of `reorder_variables` for one requested variable: the
indices (offset by the accumulator `k`) of the existing variables whose
printed name matches `nv`. -/
def idxMatchesAux (toStr : E → String) (nv : E) : List E → ℕ → List ℕ
  | [], _ => []
  | v :: vs, k =>
      if toStr v = toStr nv then k :: idxMatchesAux toStr nv vs (k + 1)
      else idxMatchesAux toStr nv vs (k + 1)

/-- Indices of the variables of `old` whose name matches `nv`
(`enumerate` starting at 0). -/
def idxMatches (toStr : E → String) (old : List E) (nv : E) : List ℕ :=
  idxMatchesAux toStr nv old 0

/-- The full `column_shuffle` list built by `reorder_variables`. -/
def columnShuffle (toStr : E → String) (old : List E) : List E → List ℕ
  | [] => []
  | nv :: rest => idxMatches toStr old nv ++ columnShuffle toStr old rest

/-- The `reorder_variables` method: assert that the requested order is a
permutation by printed name (`sorted(map(str, ...))` equality, modelled
as multiset equality of the name lists), then apply the same index
shuffle to the variable and the derivative tuples.  The in-place
mutation is modelled functionally; the failing assert returns `none`
with the system untouched. -/
def reorder_variables (toStr : E → String) (s : ODESystemM E) (new : List E) :
    Option (ODESystemM E) :=
  if Multiset.ofList (new.map toStr) = Multiset.ofList (s.vars.map toStr) then
    some ⟨(columnShuffle toStr s.vars new).filterMap (fun i => s.vars[i]?),
          (columnShuffle toStr s.vars new).filterMap (fun i => s.derivatives[i]?),
          s.indepVar⟩
  else none

/-- Index of the first element of a list whose printed name matches
`nv` (the length when there is none). -/
def nameIdx (toStr : E → String) (nv : E) : List E → ℕ
  | [] => 0
  | v :: vs => if toStr v = toStr nv then 0 else nameIdx toStr nv vs + 1

theorem nameIdx_lt (toStr : E → String) (nv : E) (l : List E)
    (h : toStr nv ∈ l.map toStr) : nameIdx toStr nv l < l.length := by
  induction l with
  | nil => cases h
  | cons v vs ih =>
      by_cases hv : toStr v = toStr nv
      · simp [nameIdx, hv]
      · have hmem : toStr nv ∈ vs.map toStr := by
          rcases List.mem_cons.mp h with h1 | h1
          · exact absurd h1.symm hv
          · exact h1
        simp only [nameIdx, hv, if_false, List.length_cons]
        exact Nat.succ_lt_succ (ih hmem)

theorem toStr_getD_nameIdx (toStr : E → String) (nv : E) (l : List E) (d : E)
    (h : toStr nv ∈ l.map toStr) : toStr (l.getD (nameIdx toStr nv l) d) = toStr nv := by
  induction l with
  | nil => cases h
  | cons v vs ih =>
      by_cases hv : toStr v = toStr nv
      · simp [nameIdx, hv]
      · have hmem : toStr nv ∈ vs.map toStr := by
          rcases List.mem_cons.mp h with h1 | h1
          · exact absurd h1.symm hv
          · exact h1
        simpa [nameIdx, hv, List.getD_cons_succ] using ih hmem

theorem nameIdx_congr (toStr : E → String) (a b : E) (l : List E)
    (h : toStr a = toStr b) : nameIdx toStr a l = nameIdx toStr b l := by
  induction l with
  | nil => rfl
  | cons v vs ih => simp only [nameIdx, h, ih]

theorem nameIdx_map_congr (toStr : E → String) (nv : E) (l₁ l₂ : List E)
    (h : l₁.map toStr = l₂.map toStr) : nameIdx toStr nv l₁ = nameIdx toStr nv l₂ := by
  induction l₁ generalizing l₂ with
  | nil =>
      cases l₂ with
      | nil => rfl
      | cons w ws => cases h
  | cons v vs ih =>
      cases l₂ with
      | nil => cases h
      | cons w ws =>
          injection h with h1 h2
          simp only [nameIdx, h1, ih ws h2]

theorem getD_nameIdx_self (toStr : E → String) (v : E) (l : List E) (d : E)
    (hnd : (l.map toStr).Nodup) (hv : v ∈ l) :
    l.getD (nameIdx toStr v l) d = v := by
  induction l with
  | nil => cases hv
  | cons x xs ih =>
      rw [List.map_cons, List.nodup_cons] at hnd
      by_cases hx : toStr x = toStr v
      · rcases List.mem_cons.mp hv with h1 | h1
        · simpa [nameIdx, hx] using h1.symm
        · exact absurd (hx ▸ List.mem_map_of_mem toStr h1) hnd.1
      · have hmem : v ∈ xs := by
          rcases List.mem_cons.mp hv with h1 | h1
          · exact absurd (congrArg toStr h1.symm) hx
          · exact h1
        simpa [nameIdx, hx, List.getD_cons_succ] using ih hnd.2 hmem

theorem nameIdx_getElem (toStr : E → String) (l : List E)
    (hnd : (l.map toStr).Nodup) (j : ℕ) (hj : j < l.length) :
    nameIdx toStr (l[j]) l = j := by
  induction l generalizing j with
  | nil => cases hj
  | cons x xs ih =>
      rw [List.map_cons, List.nodup_cons] at hnd
      cases j with
      | zero => simp [nameIdx]
      | succ j =>
          have hjlt : j < xs.length := Nat.lt_of_succ_lt_succ hj
          have hmem : toStr (xs[j]) ∈ xs.map toStr :=
            List.mem_map_of_mem toStr (List.getElem_mem hjlt)
          have hx : ¬ toStr x = toStr (xs[j]) := fun hc => hnd.1 (hc ▸ hmem)
          simp only [List.getElem_cons_succ]
          simp only [nameIdx, hx, if_false]
          exact congrArg (· + 1) (ih hnd.2 j hjlt)

theorem idxMatchesAux_nil (toStr : E → String) (nv : E) (l : List E)
    (h : ∀ v ∈ l, toStr v ≠ toStr nv) : ∀ k, idxMatchesAux toStr nv l k = [] := by
  induction l with
  | nil => intro k; rfl
  | cons v vs ih =>
      intro k
      have hv : ¬ toStr v = toStr nv := h v (List.mem_cons_self v vs)
      simp only [idxMatchesAux, hv, if_false]
      exact ih (fun w hw => h w (List.mem_cons_of_mem v hw)) (k + 1)

theorem idxMatchesAux_singleton (toStr : E → String) (nv : E) (l : List E)
    (hnd : (l.map toStr).Nodup) (h : toStr nv ∈ l.map toStr) :
    ∀ k, idxMatchesAux toStr nv l k = [k + nameIdx toStr nv l] := by
  induction l with
  | nil => cases h
  | cons v vs ih =>
      rw [List.map_cons, List.nodup_cons] at hnd
      intro k
      by_cases hv : toStr v = toStr nv
      · have hnil : ∀ w ∈ vs, toStr w ≠ toStr nv := by
          intro w hw hc
          exact hnd.1 (hv.symm ▸ hc ▸ List.mem_map_of_mem toStr hw)
        simp only [idxMatchesAux, hv, if_true, nameIdx, hnil,
          idxMatchesAux_nil toStr nv vs hnil (k + 1)]
        rfl
      · have hmem : toStr nv ∈ vs.map toStr := by
          rcases List.mem_cons.mp h with h1 | h1
          · exact absurd h1.symm hv
          · exact h1
        simp only [idxMatchesAux, hv, if_false, nameIdx, ih hnd.2 hmem (k + 1)]
        congr 1
        omega

theorem columnShuffle_eq_map (toStr : E → String) (old : List E) (new : List E)
    (hnd : (old.map toStr).Nodup) (h : ∀ nv ∈ new, toStr nv ∈ old.map toStr) :
    columnShuffle toStr old new = new.map (fun nv => nameIdx toStr nv old) := by
  induction new with
  | nil => rfl
  | cons nv rest ih =>
      have h1 : idxMatches toStr old nv = [nameIdx toStr nv old] := by
        simpa using idxMatchesAux_singleton toStr nv old hnd (h nv (List.mem_cons_self nv rest)) 0
      simp only [columnShuffle, h1, List.map_cons, List.cons_append, List.nil_append]
      exact congrArg _ (ih (fun w hw => h w (List.mem_cons_of_mem nv hw)))

theorem filterMap_getElem_eq_map_getD {α : Type} (l : List α) (idxs : List ℕ) (d : α)
    (h : ∀ i ∈ idxs, i < l.length) :
    idxs.filterMap (fun i => l[i]?) = idxs.map (fun i => l.getD i d) := by
  induction idxs with
  | nil => rfl
  | cons i is ih =>
      have hi : i < l.length := h i (List.mem_cons_self i is)
      rw [List.filterMap_cons, List.map_cons, List.getElem?_eq_getElem hi,
        List.getD_eq_getElem l d hi]
      exact congrArg _ (ih (fun j hj => h j (List.mem_cons_of_mem i hj)))

/-- Under distinct variable names and a matching name multiset,
`reorder_variables` succeeds and resolves each requested variable to the
unique existing variable (and its derivative) with the same name. -/
theorem reorder_variables_eq (toStr : E → String) (s : ODESystemM E) (new : List E)
    (hnd : (s.vars.map toStr).Nodup)
    (hlen : s.derivatives.length = s.vars.length)
    (hms : Multiset.ofList (new.map toStr) = Multiset.ofList (s.vars.map toStr)) :
    reorder_variables toStr s new =
      some ⟨new.map (fun nv => s.vars.getD (nameIdx toStr nv s.vars) s.indepVar),
            new.map (fun nv => s.derivatives.getD (nameIdx toStr nv s.vars) none),
            s.indepVar⟩ := by
  have hmem : ∀ nv ∈ new, toStr nv ∈ s.vars.map toStr := by
    intro nv hnv
    have h1 : toStr nv ∈ Multiset.ofList (new.map toStr) :=
      Multiset.mem_coe.mpr (List.mem_map_of_mem toStr hnv)
    exact Multiset.mem_coe.mp (hms ▸ h1)
  have hsh := columnShuffle_eq_map toStr s.vars new hnd hmem
  have hboundv : ∀ i ∈ columnShuffle toStr s.vars new, i < s.vars.length := by
    intro i hi
    rw [hsh] at hi
    obtain ⟨nv, hnv, rfl⟩ := List.mem_map.mp hi
    exact nameIdx_lt toStr nv s.vars (hmem nv hnv)
  have hboundd : ∀ i ∈ columnShuffle toStr s.vars new, i < s.derivatives.length := by
    intro i hi
    exact hlen ▸ hboundv i hi
  unfold reorder_variables
  rw [if_pos hms]
  congr 1
  congr 1
  · rw [filterMap_getElem_eq_map_getD s.vars _ s.indepVar hboundv, hsh, List.map_map]
    rfl
  · rw [filterMap_getElem_eq_map_getD s.derivatives _ none hboundd, hsh, List.map_map]
    rfl

/-- C7: with distinct variable names, reordering by the existing variable
order is the identity, and reordering by a name-permutation `P
` and then
by the original order restores the original variables and derivatives
exactly. -/
theorem reorder_variables_roundtrip (toStr : E → String) (s : ODESystemM E)
    (hnd : (s.vars.map toStr).Nodup)
    (hlen : s.derivatives.length = s.vars.length)
    (P : List E)
    (hP : Multiset.ofList (P.map toStr) = Multiset.ofList (s.vars.map toStr)) :
    reorder_variables toStr s s.vars = some s ∧
    ∀ s1, reorder_variables toStr s P = some s1 →
      reorder_variables toStr s1 s.vars = some s := by
  have h1 : s.vars.map (fun v => s.vars.getD (nameIdx toStr v s.vars) s.indepVar) = s.vars := by
    have hc : s.vars.map (fun v => s.vars.getD (nameIdx toStr v s.vars) s.indepVar) =
        s.vars.map id :=
      List.map_congr_left (fun v hv => getD_nameIdx_self toStr v s.vars s.indepVar hnd hv)
    rw [hc, List.map_id]
  have h2 : s.vars.map (fun v => s.derivatives.getD (nameIdx toStr v s.vars) none) =
      s.derivatives := by
    apply List.ext_getElem
    · rw [List.length_map]; exact hlen.symm
    · intro i hi1 hi2
      rw [List.getElem_map]
      have hiv : i < s.vars.length := by rw [List.length_map] at hi1; exact hi1
      rw [nameIdx_getElem toStr s.vars hnd i hiv]
      exact (List.getD_eq_getElem s.derivatives none hi2).symm ▸ rfl
  constructor
  · rw [reorder_variables_eq toStr s s.vars hnd hlen rfl, h1, h2]
  · intro s1 hs1
    rw [reorder_variables_eq toStr s P hnd hlen hP] at hs1
    injection hs1 with hs1
    subst hs1
    have hmemP : ∀ nv ∈ P, toStr nv ∈ s.vars.map toStr := by
      intro nv hnv
      have hm : toStr nv ∈ Multiset.ofList (P.map toStr) :=
        Multiset.mem_coe.mpr (List.mem_map_of_mem toStr hnv)
      exact Multiset.mem_coe.mp (hP ▸ hm)
    have hnames : ((P.map (fun nv => s.vars.getD (nameIdx toStr nv s.vars) s.indepVar)).map toStr)
        = P.map toStr := by
      rw [List.map_map]
      exact List.map_congr_left
        (fun nv hnv => toStr_getD_nameIdx toStr nv s.vars s.indepVar (hmemP nv hnv))
    have hndP : (P.map toStr).Nodup := (Multiset.coe_eq_coe.mp hP).nodup_iff.mpr hnd
    have hnd1 : ((P.map (fun nv => s.vars.getD (nameIdx toStr nv s.vars) s.indepVar)).map
        toStr).Nodup := by rw [hnames]; exact hndP
    have hlen1 : (P.map (fun nv => s.derivatives.getD (nameIdx toStr nv s.vars) none)).length =
        (P.map (fun nv => s.vars.getD (nameIdx toStr nv s.vars) s.indepVar)).length := by
      rw [List.length_map, List.length_map]
    have hms1 : Multiset.ofList (s.vars.map toStr) =
        Multiset.ofList ((P.map (fun nv => s.vars.getD (nameIdx toStr nv s.vars)
          s.indepVar)).map toStr) := by
      rw [hnames]; exact hP.symm
    refine Eq.trans (reorder_variables_eq toStr
      ⟨P.map (fun nv => s.vars.getD (nameIdx toStr nv s.vars) s.indepVar),
       P.map (fun nv => s.derivatives.getD (nameIdx toStr nv s.vars) none),
       s.indepVar⟩ s.vars hnd1 hlen1 hms1) ?_
    have hvmem : ∀ v ∈ s.vars, toStr v ∈ P.map toStr := by
      intro v hv
      have hm : toStr v ∈ Multiset.ofList (s.vars.map toStr) :=
        Multiset.mem_coe.mpr (List.mem_map_of_mem toStr hv)
      exact Multiset.mem_coe.mp (hP.symm ▸ hm)
    have key : ∀ v ∈ s.vars, ∀ d : E,
        nameIdx toStr (P.getD (nameIdx toStr v P) d) s.vars = nameIdx toStr v s.vars := by
      intro v hv d
      exact nameIdx_congr toStr _ v s.vars (toStr_getD_nameIdx toStr v P d (hvmem v hv))
    have hidx : ∀ v ∈ s.vars,
        nameIdx toStr v (P.map (fun nv => s.vars.getD (nameIdx toStr nv s.vars) s.indepVar)) =
          nameIdx toStr v P := by
      intro v _
      exact nameIdx_map_congr toStr v _ P hnames
    have hf1 : ∀ v ∈ s.vars,
        (P.map (fun nv => s.vars.getD (nameIdx toStr nv s.vars) s.indepVar)).getD
            (nameIdx toStr v (P.map (fun nv => s.vars.getD (nameIdx toStr nv s.vars)
              s.indepVar))) s.indepVar =
          s.vars.getD (nameIdx toStr v s.vars) s.indepVar := by
      intro v hv
      rw [hidx v hv]
      have hplt : nameIdx toStr v P < P.length := nameIdx_lt toStr v P (hvmem v hv)
      rw [List.getD_eq_getElem _ _ (by simpa using hplt), List.getElem_map,
        ← List.getD_eq_getElem P s.indepVar hplt]
      exact congrArg (fun j => s.vars.getD j s.indepVar) (key v hv s.indepVar)
    have hg1 : ∀ v ∈ s.vars,
        (P.map (fun nv => s.derivatives.getD (nameIdx toStr nv s.vars) none)).getD
            (nameIdx toStr v (P.map (fun nv => s.vars.getD (nameIdx toStr nv s.vars)
              s.indepVar))) none =
          s.derivatives.getD (nameIdx toStr v s.vars) none := by
      intro v hv
      rw [hidx v hv]
      have hplt : nameIdx toStr v P < P.length := nameIdx_lt toStr v P (hvmem v hv)
      rw [List.getD_eq_getElem _ _ (by simpa using hplt), List.getElem_map,
        ← List.getD_eq_getElem P s.indepVar hplt]
      exact congrArg (fun j => s.derivatives.getD j none) (key v hv s.indepVar)
    have hv1 : s.vars.map (fun v =>
        (P.map (fun nv => s.vars.getD (nameIdx toStr nv s.vars) s.indepVar)).getD
          (nameIdx toStr v (P.map (fun nv => s.vars.getD (nameIdx toStr nv s.vars)
            s.indepVar))) s.indepVar) = s.vars := by
      rw [List.map_congr_left hf1, h1]
    have hv2 : s.vars.map (fun v =>
        (P.map (fun nv => s.derivatives.getD (nameIdx toStr nv s.vars) none)).getD
          (nameIdx toStr v (P.map (fun nv => s.vars.getD (nameIdx toStr nv s.vars)
            s.indepVar))) none) = s.derivatives := by
      rw [List.map_congr_left hg1, h2]
    rw [hv1, hv2]

/-- C8: when the requested variable order is not a permutation by name of
the current variables, `reorder_variables` fails with the system left
untouched: the assert precedes any mutation, which the functional model
renders as returning `none`. -/
theorem reorder_variables_mismatch_fails (toStr : E → String) (s : ODESystemM E)
    (new : List E)
    (h : Multiset.ofList (new.map toStr) ≠ Multiset.ofList (s.vars.map toStr)) :
    reorder_variables toStr s new = none := by
  unfold reorder_variables
  rw [if_neg h]

/-- Witness for C7: a concrete two-variable system reordered by the
reversed order and back. -/
theorem reorder_variables_roundtrip_witness :
    reorder_variables (fun v => v)
      (⟨["t", "x"], [some "one", some "fx"], "t"⟩ : ODESystemM String) ["x", "t"] =
      some ⟨["x", "t"], [some "fx", some "one"], "t"⟩ :=
  (reorder_variables_roundtrip (fun v => v)
      ⟨["x", "t"], [some "fx", some "one"], "t"⟩ (by decide) (by decide)
      ["t", "x"] (by decide)).2
    ⟨["t", "x"], [some "one", some "fx"], "t"⟩ (by decide)

/-- Witness for C8: requesting a strict subset of the variables fails. -/
theorem reorder_variables_mismatch_fails_witness :
    reorder_variables (fun v => v)
      (⟨["x", "t"], [some "fx", some "one"], "t"⟩ : ODESystemM String) ["x"] = none :=
  reorder_variables_mismatch_fails (fun v => v)
    ⟨["x", "t"], [some "fx", some "one"], "t"⟩ ["x"] (by decide)

/-- ASCII alphanumeric: the regex character class [a-zA-Z0-9]. -/
def isAlnumChar (c : Char) : Bool := c.isAlpha || c.isDigit

/-- Failure outcomes of `parse_de`: the regex not matching at all (the
AttributeError on `match.group`) or the wrong-independent-variable
ValueError. -/
inductive ParseErr where
  | noMatch : ParseErr
  | wrongIndep : ParseErr
deriving DecidableEq

/-- The anchored regex match of `parse_de` on a character list, for the
pattern of a derivative left-hand side followed by the right-hand side:
a literal d, a greedy alphanumeric run (the dependent variable), the
literal /d, a second greedy alphanumeric run (the denominator
identifier), then optional spaces, equal signs and spaces before the
rest.  The greedy runs are maximal runs of the class, since the literals
that follow are outside the class. -/
def matchDE (cs : List Char) : Option (List Char × List Char × List Char) :=
  match cs with
  | [] => none
  | c :: rest =>
      if c = 'd' then
        match rest.dropWhile isAlnumChar with
        | c1 :: c2 :: rest2 =>
            if c1 = '/' ∧ c2 = 'd' then
              some (rest.takeWhile isAlnumChar, rest2.takeWhile isAlnumChar,
                (((rest2.dropWhile isAlnumChar).dropWhile Char.isWhitespace).dropWhile
                  (fun x => x == '=')).dropWhile Char.isWhitespace)
            else none
        | _ => none
      else none

/-- Python str.strip on a character list: whitespace removed from both
ends. -/
def pyStrip (cs : List Char) : List Char :=
  ((cs.dropWhile Char.isWhitespace).reverse.dropWhile Char.isWhitespace).reverse

/-- The `parse_de` function: strip the line, match the derivative
syntax, and reject a denominator identifier different from the expected
independent variable (the ValueError).  The variable name and the
right-hand side are returned as strings; sympifying them is the symbolic
collaborator's job. -/
def parse_de (indep : String) (line : String) : Except ParseErr (String × String) :=
  match matchDE (pyStrip line.toList) with
  | none => Except.error ParseErr.noMatch
  | some (v, iv, rhs) =>
      if String.mk iv ≠ indep then Except.error ParseErr.wrongIndep
      else Except.ok (String.mk v, String.mk rhs)

theorem takeWhile_append_all {α : Type} (p : α → Bool) (l₁ l₂ : List α)
    (h : ∀ a ∈ l₁, p a = true) : (l₁ ++ l₂).takeWhile p = l₁ ++ l₂.takeWhile p := by
  induction l₁ with
  | nil => rfl
  | cons a l ih =>
      rw [List.cons_append, List.takeWhile_cons, h a (List.mem_cons_self a l), List.cons_append]
      exact congrArg _ (ih (fun b hb => h b (List.mem_cons_of_mem a hb)))

theorem dropWhile_append_all {α : Type} (p : α → Bool) (l₁ l₂ : List α)
    (h : ∀ a ∈ l₁, p a = true) : (l₁ ++ l₂).dropWhile p = l₂.dropWhile p := by
  induction l₁ with
  | nil => rfl
  | cons a l ih =>
      rw [List.cons_append, List.dropWhile_cons, h a (List.mem_cons_self a l)]
      exact ih (fun b hb => h b (List.mem_cons_of_mem a hb))

/-- C9: a (stripped) equation line of the derivative form whose
denominator identifier `iv` differs from the expected independent
variable is rejected by `parse_de` with the wrong-independent-variable
error, producing no result. -/
theorem parse_de_wrong_indep (indep line : String) (v iv rest : List Char)
    (hline : pyStrip line.toList = 'd' :: (v ++ '/' :: 'd' :: (iv ++ rest)))
    (hv : ∀ c ∈ v, isAlnumChar c = true)
    (hiv : ∀ c ∈ iv, isAlnumChar c = true)
    (hrest : rest.takeWhile isAlnumChar = [])
    (hne : String.mk iv ≠ indep) :
    parse_de indep line = Except.error ParseErr.wrongIndep := by
  have hdrop1 : (v ++ '/' :: 'd' :: (iv ++ rest)).dropWhile isAlnumChar =
      '/' :: 'd' :: (iv ++ rest) := by
    rw [dropWhile_append_all isAlnumChar v _ hv]
    rfl
  have htake2 : (iv ++ rest).takeWhile isAlnumChar = iv := by
    rw [takeWhile_append_all isAlnumChar iv rest hiv, hrest, List.append_nil]
  unfold parse_de
  rw [hline]
  simp only [matchDE, hdrop1, htake2, if_pos rfl]
  simp only [and_self, if_true, true_and, reduceIte]
  rw [if_pos hne]

/-- Witness for C9: the line dn/ds = n + 1 against the expected
independent variable t. -/
theorem parse_de_wrong_indep_witness :
    parse_de "t" "dn/ds = n + 1" = Except.error ParseErr.wrongIndep :=
  parse_de_wrong_indep "t" "dn/ds = n + 1" ['n'] ['s'] [' ', '=', ' ', 'n', ' ', '+', ' ', '1']
    (by decide) (by decide) (by decide) (by decide) (by decide)

/-- Modelled from the spec: `unique_array_stable` of `sympy_helper` (not
part of the core sources): deduplicate a list keeping the first
occurrence of each element, preserving order. -/
def unique_array_stable [DecidableEq α] (l : List α) : List α :=
  l.foldl (fun acc x => if x ∈ acc then acc else acc ++ [x]) []

theorem mem_foldl_unique [DecidableEq α] (l : List α) (a : α) :
    ∀ acc : List α,
      (a ∈ l.foldl (fun acc x => if x ∈ acc then acc else acc ++ [x]) acc ↔
        a ∈ acc ∨ a ∈ l) := by
  induction l with
  | nil => intro acc; simp
  | cons x xs ih =>
      intro acc
      rw [List.foldl_cons, ih]
      by_cases hx : x ∈ acc
      · rw [if_pos hx]
        constructor
        · rintro (h | h)
          · exact Or.inl h
          · exact Or.inr (List.mem_cons_of_mem x h)
        · rintro (h | h)
          · exact Or.inl h
          · rcases List.mem_cons.mp h with h1 | h1
            · exact Or.inl (h1 ▸ hx)
            · exact Or.inr h1
      · rw [if_neg hx]
        constructor
        · rintro (h | h)
          · rcases List.mem_append.mp h with h1 | h1
            · exact Or.inl h1
            · exact Or.inr (List.mem_cons.mpr (Or.inl (List.mem_singleton.mp h1)))
          · exact Or.inr (List.mem_cons_of_mem x h)
        · rintro (h | h)
          · exact Or.inl (List.mem_append.mpr (Or.inl h))
          · rcases List.mem_cons.mp h with h1 | h1
            · exact Or.inl (List.mem_append.mpr (Or.inr (h1 ▸ List.mem_singleton_self x)))
            · exact Or.inr h1

theorem mem_unique_array_stable [DecidableEq α] (l : List α) (a : α) :
    a ∈ unique_array_stable l ↔ a ∈ l := by
  unfold unique_array_stable
  rw [mem_foldl_unique]
  simp

/-- Insertion step of the stable name sort modelling Python `sorted`
with `key=str`. -/
def insertByName (toStr : α → String) (x : α) : List α → List α
  | [] => [x]
  | y :: ys => if toStr x ≤ toStr y then x :: y :: ys else y :: insertByName toStr x ys

/-- Python `sorted(..., key=str)` modelled as insertion sort on the
printed names. -/
def sortByName (toStr : α → String) : List α → List α
  | [] => []
  | x :: xs => insertByName toStr x (sortByName toStr xs)

theorem mem_insertByName (toStr : α → String) (x a : α) (l : List α) :
    a ∈ insertByName toStr x l ↔ a = x ∨ a ∈ l := by
  induction l with
  | nil => simp [insertByName]
  | cons y ys ih =>
      by_cases h : toStr x ≤ toStr y
      · simp [insertByName, h]
      · simp only [insertByName, h, if_false, List.mem_cons, ih]
        tauto

theorem mem_sortByName (toStr : α → String) (a : α) (l : List α) :
    a ∈ sortByName toStr l ↔ a ∈ l := by
  induction l with
  | nil => simp [sortByName]
  | cons x xs ih =>
      rw [sortByName, mem_insertByName, ih, List.mem_cons]

/-- First binding of the key `k` in an association list. -/
def lookupFirst [DecidableEq K] (k : K) : List (K × V) → Option V
  | [] => none
  | p :: rest => if p.1 = k then some p.2 else lookupFirst k rest

/-- Python dict built from a pair list: the last binding of a key wins. -/
def pyDictGet [DecidableEq K] (ps : List (K × V)) (k : K) : Option V :=
  lookupFirst k ps.reverse

theorem lookupFirst_isSome_iff [DecidableEq K] (k : K) (ps : List (K × V)) :
    (lookupFirst k ps).isSome = true ↔ k ∈ ps.map Prod.fst := by
  induction ps with
  | nil => simp [lookupFirst]
  | cons p rest ih =>
      by_cases h : p.1 = k
      · simp [lookupFirst, h]
      · simp only [lookupFirst, h, if_false, List.map_cons, List.mem_cons, ih]
        constructor
        · exact Or.inr
        · rintro (h1 | h1)
          · exact absurd h1.symm h
          · exact h1

theorem pyDictGet_isSome_iff [DecidableEq K] (k : K) (ps : List (K × V)) :
    (pyDictGet ps k).isSome = true ↔ k ∈ ps.map Prod.fst := by
  unfold pyDictGet
  rw [lookupFirst_isSome_iff, List.map_reverse, List.mem_reverse]

theorem pyIndex_lt_of_mem [DecidableEq α] (a : α) (l : List α) (h : a ∈ l) :
    pyIndex a l < l.length := by
  induction l with
  | nil => cases h
  | cons x xs ih =>
      by_cases hx : x = a
      · simp [pyIndex, hx]
      · have hm : a ∈ xs := by
          rcases List.mem_cons.mp h with h1 | h1
          · exact absurd h1.symm hx
          · exact h1
        simp only [pyIndex, hx, if_false, List.length_cons]
        exact Nat.succ_lt_succ (ih hm)

theorem getElem_pyIndex [DecidableEq α] (a : α) (l : List α) (h : a ∈ l)
    (hlt : pyIndex a l < l.length) : l[pyIndex a l] = a := by
  induction l with
  | nil => cases h
  | cons x xs ih =>
      by_cases hx : x = a
      · simp [pyIndex, hx]
      · have hm : a ∈ xs := by
          rcases List.mem_cons.mp h with h1 | h1
          · exact absurd h1.symm hx
          · exact h1
        have hlt2 : pyIndex a xs < xs.length := pyIndex_lt_of_mem a xs hm
        simp only [pyIndex, hx, if_false]
        simpa using ih hm hlt2

/-- The dependent-variable keys of the parsed equation dict built by
`from_equations` (a dict of parsed pairs; the key set deduplicated). -/
def feKeys [DecidableEq E] (eqs : List (E × E)) : List E :=
  unique_array_stable (eqs.map Prod.fst)

/-- The values of the parsed equation dict, one per unique key (the last
binding of a key wins). -/
def feVals [DecidableEq E] (eqs : List (E × E)) : List E :=
  (feKeys eqs).filterMap (fun k => pyDictGet eqs k)

/-- The variable ordering built by `from_equations`: sorted dependents,
then the independent variable, then the sorted free variables of the
right-hand sides, deduplicated keeping first occurrences. -/
def feVarList [DecidableEq E] (toStr : E → String) (freeVars : E → List E)
    (indep : E) (eqs : List (E × E)) : List E :=
  unique_array_stable (sortByName toStr (feKeys eqs) ++ [indep] ++
    sortByName toStr (unique_array_stable ((feVals eqs).map freeVars).flatten))

/-- The `from_equations` factory on already-parsed (variable, expression)
pairs: order the variables per `feVarList` (with
`expressions_to_variables` modelled by the collaborator `freeVars`,
applied per expression), assert that no input equation binds the
independent variable, insert the derivative 1 for it, look up each
variable's derivative in the dict (absent means unspecified), and call
the constructor.  The constructor call in the code passes no
`indep_var`, so the constructed system carries the default symbol `t`,
modelled by `tE`. -/
def from_equations [DecidableEq E] (toStr : E → String) (freeVars : E → List E)
    (zero one tE : E) (indep : E) (eqs : List (E × E)) : Option (ODESystemM E) :=
  if (pyDictGet eqs indep).isSome then none
  else
    mkODESystem zero one (feVarList toStr freeVars indep eqs)
      ((feVarList toStr freeVars indep eqs).map (fun v => pyDictGet (eqs ++ [(indep, one)]) v))
      tE

/-- C10: `from_equations` fails when some input equation defines the
derivative of the independent variable itself; otherwise the factory
inserts the derivative 1 for the independent variable automatically, so
any successfully constructed system contains the independent variable
and stores exactly the derivative `one` at its index. -/
theorem from_equations_indep_derivative {E : Type} [DecidableEq E]
    (toStr : E → String) (freeVars : E → List E) (zero one tE : E) (indep : E)
    (eqs : List (E × E)) :
    (indep ∈ eqs.map Prod.fst →
      from_equations toStr freeVars zero one tE indep eqs = none) ∧
    (indep ∉ eqs.map Prod.fst →
      ∀ s, from_equations toStr freeVars zero one tE indep eqs = some s →
        indep ∈ s.vars ∧ s.derivatives.getD (pyIndex indep s.vars) none = some one) := by
  constructor
  · intro hmem
    unfold from_equations
    rw [if_pos ((pyDictGet_isSome_iff indep eqs).mpr hmem)]
  · intro hnmem s hs
    have hnis : ¬ (pyDictGet eqs indep).isSome = true :=
      fun hc => hnmem ((pyDictGet_isSome_iff indep eqs).mp hc)
    unfold from_equations at hs
    rw [if_neg hnis] at hs
    unfold mkODESystem at hs
    split at hs
    · rename_i hcond
      injection hs with hs
      subst hs
      have hmemv : indep ∈ feVarList toStr freeVars indep eqs := by
        unfold feVarList
        rw [mem_unique_array_stable]
        exact List.mem_append.mpr (Or.inl (List.mem_append.mpr (Or.inr
          (List.mem_singleton_self indep))))
      refine ⟨hmemv, ?_⟩
      have hget : pyDictGet (eqs ++ [(indep, one)]) indep = some one := by
        unfold pyDictGet
        rw [List.reverse_append]
        simp [lookupFirst]
      have hlt : pyIndex indep (feVarList toStr freeVars indep eqs) <
          (feVarList toStr freeVars indep eqs).length :=
        pyIndex_lt_of_mem indep _ hmemv
      rw [List.getD_eq_getElem _ _ (by simpa using hlt), List.getElem_map,
        getElem_pyIndex indep _ hmemv hlt, hget]
    · cases hs

/-- Witness for C10: an equation set binding the independent variable is
rejected, and a one-equation system receives the inserted derivative 1
for the independent variable. -/
theorem from_equations_indep_derivative_witness :
    from_equations (fun n => toString n) (fun _ => []) 8 7 0 0 [(0, 5)] = none ∧
    (([some 5, some 7] : List (Option ℕ)).getD (pyIndex 0 [1, 0]) none = some 7) :=
  ⟨(from_equations_indep_derivative (fun n => toString n) (fun _ => []) 8 7 0 0
      [(0, 5)]).1 (by decide),
   ((from_equations_indep_derivative (fun n => toString n) (fun _ => []) 8 7 0 0
      [(1, 5)]).2 (by decide) ⟨[1, 0], [some 5, some 7], 0⟩ (by decide)).2⟩
